import Mathlib

/-!
Shallow embedding of the `circular2` staging buffer (`src/lib.rs`).

The Rust `Buffer` owns a `Vec<u8>` plus two cursors `start` and `end`.
We model the backing vector as a `List Nat` of bytes; its length is the
capacity (the source queries `Vec::capacity`, which for the vectors the
source ever builds — `vec![0; n]`, `to_owned`, `resize` — equals the
length in this deterministic model).  Rust panics (the `panic!` calls in
`fill`/`consume`, out-of-bounds slice copies, and `Option::expect`) are
modelled as `Except.error`; the recoverable `Option<usize>` results of
the slice-editing operations are modelled as an `Option Nat` alongside
the (possibly unchanged) buffer.  `debug_assert!` is compiled out in
release builds and is not modelled.
-/

set_option autoImplicit false

namespace Circular

/-- Overwrite the segment of `l` starting at index `d` with `seg`
(the semantics of writing `seg` into `l[d .. d + seg.length]` when that
range is in bounds). -/
def overwrite (l : List Nat) (d : Nat) (seg : List Nat) : List Nat :=
  l.take d ++ seg ++ l.drop (d + seg.length)

/-- `Vec::copy_within(s..e, d)`: copy the segment `l[s..e]` to start at
index `d`, as `memmove` (the unchecked result; callers guard bounds). -/
def copyWithin (l : List Nat) (s e d : Nat) : List Nat :=
  overwrite l d ((l.drop s).take (e - s))

/-- `Vec::copy_within(s..e, d)` with the bounds checks Rust performs;
`none` models the panic on an out-of-range copy. -/
def copyWithin? (l : List Nat) (s e d : Nat) : Option (List Nat) :=
  if s ≤ e ∧ e ≤ l.length ∧ d + (e - s) ≤ l.length then
    some (copyWithin l s e d)
  else none

/-- `buf[a .. a + data.len()].copy_from_slice(data)` with Rust's bounds
check; `none` models the panic on an out-of-range destination. -/
def setRange? (l : List Nat) (a : Nat) (data : List Nat) : Option (List Nat) :=
  if a + data.length ≤ l.length then some (overwrite l a data) else none

/-- The staging buffer: backing bytes plus the `start`/`end` cursors. -/
structure Buffer where
  buf : List Nat
  start : Nat
  «end» : Nat
  deriving Repr, DecidableEq

namespace Buffer

/-- `Buffer::with_capacity`: zero-filled storage, `start = end = 0`. -/
def with_capacity (capacity : Nat) : Buffer :=
  { buf := List.replicate capacity 0, start := 0, «end» := 0 }

/-- `Buffer::from_slice`: copy the given bytes, `start = 0`, `end = len`. -/
def from_slice (data : List Nat) : Buffer :=
  { buf := data, start := 0, «end» := data.length }

/-- `Buffer::capacity`. -/
def capacity (b : Buffer) : Nat := b.buf.length

/-- `Buffer::available_data`: `end - start`. -/
def available_data (b : Buffer) : Nat := b.«end» - b.start

/-- `Buffer::available_space`: `capacity - end`. -/
def available_space (b : Buffer) : Nat := b.capacity - b.«end»

/-- `Buffer::position`: the `start` cursor. -/
def position (b : Buffer) : Nat := b.start

/-- `Buffer::empty`. -/
def empty (b : Buffer) : Bool := b.«end» == b.start

/-- `Buffer::data`: the slice `buf[start..end]`. -/
def data (b : Buffer) : List Nat :=
  (b.buf.drop b.start).take (b.«end» - b.start)

/-- `Buffer::grow`: no-op returning `false` when `new_size` does not
exceed the capacity, otherwise `resize(new_size, 0)` and `true`. -/
def grow (b : Buffer) (new_size : Nat) : Buffer × Bool :=
  if new_size ≤ b.capacity then (b, false)
  else ({ b with buf := b.buf ++ List.replicate (new_size - b.buf.length) 0 }, true)

/-- `Buffer::consume`: `Except.error` models the Rust panic when asked
to consume more than `available_data`. -/
def consume (b : Buffer) (count : Nat) : Except String (Buffer × Nat) :=
  if count > b.available_data then
    .error "attempted to consume more data than available"
  else
    .ok ({ b with start := b.start + count }, count)

/-- `Buffer::consume_noshift`: forwards to `consume`. -/
def consume_noshift (b : Buffer) (count : Nat) : Except String (Buffer × Nat) :=
  b.consume count

/-- `Buffer::fill`: `Except.error` models the Rust panic when asked to
fill more than `available_space`. -/
def fill (b : Buffer) (count : Nat) : Except String (Buffer × Nat) :=
  if count > b.available_space then
    .error "attempted to write more data than available space"
  else
    .ok ({ b with «end» := b.«end» + count }, count)

/-- `Buffer::reset`. -/
def reset (b : Buffer) : Buffer :=
  { b with start := 0, «end» := 0 }

/-- `Buffer::shift`: move `buf[start..end]` to offset 0. -/
def shift (b : Buffer) : Buffer :=
  if b.start = 0 then b
  else
    let len := b.«end» - b.start
    { buf := copyWithin b.buf b.start b.«end» 0, start := 0, «end» := len }

/-- `Buffer::delete_slice`: remove `len` bytes at logical offset `start`.
`(b, none)` models the `None` rejection (buffer untouched). -/
def delete_slice (b : Buffer) (start len : Nat) : Buffer × Option Nat :=
  if start + len ≥ b.available_data then (b, none)
  else
    let copy_from := b.start + start + len
    let copy_to := b.start + start
    let b2 : Buffer :=
      { buf := copyWithin b.buf copy_from b.«end» copy_to,
        start := b.start, «end» := b.«end» - len }
    (b2, some b2.available_data)

/-- The copy phase of `insert_slice` (the code after the guards and the
optional implicit `shift`). -/
def insert_go (b1 : Buffer) (data : List Nat) (start : Nat) :
    Except String (Buffer × Option Nat) :=
  let remain_start := b1.start + start
  let remain_end := b1.«end»
  let remain_copy_to := remain_start + data.length
  match copyWithin? b1.buf remain_start remain_end remain_copy_to with
  | none => .error "index out of bounds"
  | some buf2 =>
    let insert_at := b1.start + start
    match setRange? buf2 insert_at data with
    | none => .error "index out of bounds"
    | some buf3 =>
      let b2 : Buffer :=
        { buf := buf3, start := b1.start, «end» := b1.«end» + data.length }
      .ok (b2, some b2.available_data)

/-- `Buffer::insert_slice`: insert `data` at logical offset `start`,
shifting first when the tail would not fit in place.  `.ok (b, none)`
models the `None` rejection; `.error` models the panic of an
out-of-bounds `copy_within`/`copy_from_slice`. -/
def insert_slice (b : Buffer) (data : List Nat) (start : Nat) :
    Except String (Buffer × Option Nat) :=
  if start ≥ b.available_data then .ok (b, none)
  else if b.available_space + data.length > b.capacity then
    -- could not possibly fit new data
    .ok (b, none)
  else
    let b1 :=
      if b.start + b.available_data + data.length > b.capacity then
        -- cannot fit new data as is, but can if we shift()
        b.shift
      else b
    insert_go b1 data start

/-- The final `copy_from_slice` shared by all three `replace_slice`
branches: write `data` at `self.start + start`. -/
def finishReplace (b : Buffer) (data : List Nat) (start : Nat) :
    Except String (Buffer × Option Nat) :=
  match setRange? b.buf (b.start + start) data with
  | none => .error "index out of bounds"
  | some buf2 =>
    let b2 : Buffer := { b with buf := buf2 }
    .ok (b2, some b2.available_data)

/-- `Buffer::replace_slice`: replace the `len` logical bytes at `start`
with `data`.  The three branches mirror `len.cmp(&data.len())`; the
`.expect` calls on the internal `delete_slice`/`insert_slice` are
modelled as `.error`. -/
def replace_slice (b : Buffer) (data : List Nat) (start len : Nat) :
    Except String (Buffer × Option Nat) :=
  if len > data.length then
    if b.start + start + len > b.«end» then .ok (b, none)
    else
      let delete_from := start + data.length
      let delete_len := len - data.length
      match b.delete_slice delete_from delete_len with
      | (_, none) => .error "logic error in replace_slice (greater)"
      | (b1, some _) => b1.finishReplace data start
  else if len < data.length then
    if b.start + start + data.length > b.«end» then .ok (b, none)
    else
      let fits := data.take len
      let extra := data.drop len
      let insert_at := start + len
      match b.insert_slice extra insert_at with
      | .error e => .error e
      | .ok (_, none) => .error "logic error in replace_slice (less)"
      | .ok (b1, some _) => b1.finishReplace fits start
  else
    if b.start + start + len > b.«end» then .ok (b, none)
    else b.finishReplace data start

/-- `Read::read` into a destination of length `dstLen`: returns the new
buffer and the bytes copied out. -/
def read (b : Buffer) (dstLen : Nat) : Buffer × List Nat :=
  let read_from := b.data
  let read_len := min read_from.length dstLen
  ({ b with start := b.start + read_len }, read_from.take read_len)

/-- `Write::write` from `src`: copies `min(available_space, src.len())`
bytes into the space region and advances `end`. -/
def write (b : Buffer) (src : List Nat) : Buffer × Nat :=
  let write_len := min (b.buf.length - b.«end») src.length
  ({ b with
      buf := b.buf.take b.«end» ++ src.take write_len
              ++ b.buf.drop (b.«end» + write_len),
      «end» := b.«end» + write_len },
   write_len)

/-- Structural well-formedness: the cursor ordering every Rust-reachable
buffer satisfies (proved for reachable states below). -/
def WF (b : Buffer) : Prop :=
  b.start ≤ b.«end» ∧ b.«end» ≤ b.buf.length

instance (b : Buffer) : Decidable b.WF := by
  unfold WF; infer_instance

end Buffer

/-! ### Pointwise lemmas about the storage primitives -/

theorem overwrite_length {l seg : List Nat} {d : Nat} (h : d + seg.length ≤ l.length) :
    (overwrite l d seg).length = l.length := by
  simp [overwrite]
  omega

theorem getElem?_overwrite {l seg : List Nat} {d : Nat} (h : d + seg.length ≤ l.length)
    (i : Nat) :
    (overwrite l d seg)[i]? =
      if i < d then l[i]? else if i < d + seg.length then seg[i - d]? else l[i]? := by
  have hd : d ≤ l.length := by omega
  simp only [overwrite, List.getElem?_append, List.length_append, List.length_take,
    Nat.min_eq_left hd, List.getElem?_take, List.getElem?_drop]
  split_ifs <;> first | rfl | (exfalso; omega) | (congr 1; omega)

theorem take_overwrite {l seg : List Nat} {d a : Nat} (ha : a ≤ d)
    (h : d + seg.length ≤ l.length) :
    (overwrite l d seg).take a = l.take a := by
  apply List.ext_getElem?
  intro i
  simp only [List.getElem?_take]
  split_ifs with hi
  · rw [getElem?_overwrite h, if_pos (by omega)]
  · rfl

theorem data_length {b : Buffer} (hwf : b.WF) :
    b.data.length = b.«end» - b.start := by
  obtain ⟨h1, h2⟩ := hwf
  simp [Buffer.data]
  omega

theorem getElem?_data (b : Buffer) (i : Nat) :
    b.data[i]? = if i < b.«end» - b.start then b.buf[b.start + i]? else none := by
  simp [Buffer.data, List.getElem?_take, List.getElem?_drop]

/-! ### `shift` -/

theorem shift_start (b : Buffer) : b.shift.start = 0 := by
  unfold Buffer.shift
  split_ifs with h
  · exact h
  · rfl

theorem shift_end (b : Buffer) : b.shift.«end» = b.«end» - b.start := by
  unfold Buffer.shift
  split_ifs with h
  · rw [h]
    rfl
  · rfl

theorem shift_buf_length {b : Buffer} (hwf : b.WF) :
    b.shift.buf.length = b.buf.length := by
  obtain ⟨h1, h2⟩ := hwf
  unfold Buffer.shift
  split_ifs with h
  · rfl
  · show (copyWithin b.buf b.start b.«end» 0).length = b.buf.length
    unfold copyWithin
    apply overwrite_length
    simp only [List.length_take, List.length_drop]
    omega

theorem shift_data {b : Buffer} (hwf : b.WF) : b.shift.data = b.data := by
  obtain ⟨h1, h2⟩ := hwf
  unfold Buffer.shift
  split_ifs with h
  · rfl
  · apply List.ext_getElem?
    intro i
    rw [getElem?_data, getElem?_data]
    show (if i < b.«end» - b.start - 0 then (copyWithin b.buf b.start b.«end» 0)[0 + i]? else none)
      = _
    unfold copyWithin
    have hseg : ((b.buf.drop b.start).take (b.«end» - b.start)).length
        = b.«end» - b.start := by
      simp [List.length_take, List.length_drop]
      omega
    split_ifs with hi hj
    · rw [getElem?_overwrite (by rw [hseg]; omega), hseg]
      rw [if_neg (by omega), if_pos (by omega)]
      simp only [List.getElem?_take, List.getElem?_drop]
      rw [if_pos (by omega)]
      congr 1
      omega
    · exfalso; omega
    · exfalso; omega
    · rfl

theorem shift_wf {b : Buffer} (hwf : b.WF) : b.shift.WF := by
  constructor
  · rw [shift_start]
    exact Nat.zero_le _
  · rw [shift_end, shift_buf_length hwf]
    obtain ⟨h1, h2⟩ := hwf
    omega

/-! ### `delete_slice` -/

theorem delete_slice_effect {b : Buffer} {s len : Nat} (hwf : b.WF)
    (h : s + len < b.available_data) :
    ∃ b2, b.delete_slice s len = (b2, some (b.available_data - len)) ∧
      b2.start = b.start ∧ b2.«end» = b.«end» - len ∧
      b2.buf.length = b.buf.length ∧
      b2.data = b.data.take s ++ b.data.drop (s + len) ∧
      b2.buf.take b.start = b.buf.take b.start ∧ b2.WF := by
  obtain ⟨h1, h2⟩ := hwf
  have had : s + len < b.«end» - b.start := h
  unfold Buffer.delete_slice
  rw [if_neg (by unfold Buffer.available_data at *; omega)]
  have hrw : b.available_data - len = b.«end» - len - b.start := by
    unfold Buffer.available_data
    omega
  rw [hrw]
  set seg := (b.buf.drop (b.start + s + len)).take (b.«end» - (b.start + s + len)) with hseg
  have hsegl : seg.length = b.«end» - (b.start + s + len) := by
    rw [hseg]
    simp only [List.length_take, List.length_drop]
    omega
  have hbound : (b.start + s) + seg.length ≤ b.buf.length := by omega
  refine ⟨⟨overwrite b.buf (b.start + s) seg, b.start, b.«end» - len⟩, rfl, rfl, rfl,
    overwrite_length hbound, ?_, take_overwrite (by omega) hbound, ?_⟩
  · apply List.ext_getElem?
    intro i
    rw [getElem?_data]
    simp only [getElem?_overwrite hbound, hsegl, hseg, List.getElem?_append, List.length_take,
      List.getElem?_take, List.getElem?_drop, getElem?_data, data_length (⟨h1, h2⟩ : b.WF)]
    split_ifs <;> first | rfl | (exfalso; omega) | (congr 1; omega)
  · constructor <;> (simp only [overwrite_length hbound]; omega)

/-- C3: `delete_slice` rejects `offset + len == available_data` without
mutating state, accepts `offset + len == available_data - 1`, and on
every accepted call moves the bytes after the deleted range left by
`len`, decreases `end` by `len`, and returns the new `available_data`. -/
theorem delete_slice_spec (b : Buffer) (s len : Nat) (hwf : b.WF) :
    (s + len = b.available_data → b.delete_slice s len = (b, none)) ∧
    (s + len + 1 ≤ b.available_data →
      ∃ b2, b.delete_slice s len = (b2, some b2.available_data) ∧
        b2.available_data = b.available_data - len ∧
        b2.start = b.start ∧ b2.«end» = b.«end» - len ∧
        b2.data = b.data.take s ++ b.data.drop (s + len)) := by
  constructor
  · intro h
    unfold Buffer.delete_slice
    rw [if_pos (by omega)]
  · intro h
    obtain ⟨b2, heq, hst, he, _, hdata, _, hwf2⟩ :=
      @delete_slice_effect b s len hwf (by omega)
    refine ⟨b2, ?_, ?_, hst, he, hdata⟩
    · rw [heq]
      have : b2.available_data = b.available_data - len := by
        unfold Buffer.available_data at *
        omega
      rw [this]
    · unfold Buffer.available_data at *
      omega

/-! ### `insert_slice` -/

theorem insert_go_ok {b1 : Buffer} {data : List Nat} {s : Nat} (hwf : b1.WF)
    (hs : s < b1.available_data)
    (hfit : b1.«end» + data.length ≤ b1.buf.length) :
    ∃ b2, Buffer.insert_go b1 data s = .ok (b2, some (b1.available_data + data.length)) ∧
      b2.start = b1.start ∧ b2.«end» = b1.«end» + data.length ∧
      b2.buf.length = b1.buf.length ∧
      b2.data = b1.data.take s ++ data ++ b1.data.drop s ∧
      b2.buf.take b1.start = b1.buf.take b1.start ∧ b2.WF := by
  obtain ⟨h1, h2⟩ := hwf
  have hs' : s < b1.«end» - b1.start := hs
  set seg := (b1.buf.drop (b1.start + s)).take (b1.«end» - (b1.start + s)) with hseg
  have hsegl : seg.length = b1.«end» - (b1.start + s) := by
    rw [hseg]
    simp only [List.length_take, List.length_drop]
    omega
  have hbound1 : (b1.start + s + data.length) + seg.length ≤ b1.buf.length := by omega
  have hlen2 : (overwrite b1.buf (b1.start + s + data.length) seg).length = b1.buf.length :=
    overwrite_length hbound1
  have hbound2 : (b1.start + s) + data.length
      ≤ (overwrite b1.buf (b1.start + s + data.length) seg).length := by
    rw [hlen2]
    omega
  have hcw : copyWithin? b1.buf (b1.start + s) b1.«end» (b1.start + s + data.length)
      = some (overwrite b1.buf (b1.start + s + data.length) seg) := by
    unfold copyWithin? copyWithin
    rw [if_pos ⟨by omega, by omega, by omega⟩, ← hseg]
  have hsr : setRange? (overwrite b1.buf (b1.start + s + data.length) seg)
      (b1.start + s) data
      = some (overwrite (overwrite b1.buf (b1.start + s + data.length) seg)
          (b1.start + s) data) := by
    unfold setRange?
    rw [if_pos hbound2]
  have hrw : b1.available_data + data.length = b1.«end» + data.length - b1.start := by
    unfold Buffer.available_data
    omega
  rw [hrw]
  refine ⟨⟨overwrite (overwrite b1.buf (b1.start + s + data.length) seg) (b1.start + s) data,
      b1.start, b1.«end» + data.length⟩, ?_, rfl, rfl, ?_, ?_, ?_, ?_⟩
  · show Buffer.insert_go b1 data s = _
    unfold Buffer.insert_go
    simp only [hcw, hsr]
    rfl
  · rw [overwrite_length hbound2, hlen2]
  · apply List.ext_getElem?
    intro i
    rw [getElem?_data]
    simp only [getElem?_overwrite hbound2, getElem?_overwrite hbound1, hsegl, hseg,
      List.getElem?_append, List.length_append, List.length_take, List.getElem?_take,
      List.getElem?_drop, getElem?_data, data_length (⟨h1, h2⟩ : b1.WF)]
    split_ifs <;> first | rfl | (exfalso; omega) | (congr 1; omega)
  · rw [take_overwrite (by omega) hbound2, take_overwrite (by omega) hbound1]
  · constructor
    · show b1.start ≤ b1.«end» + data.length
      omega
    · show b1.«end» + data.length ≤ _
      rw [overwrite_length hbound2, hlen2]
      exact hfit

theorem shift_available_data (b : Buffer) :
    b.shift.available_data = b.available_data := by
  unfold Buffer.available_data
  rw [shift_start, shift_end]
  omega

theorem insert_slice_reject {b : Buffer} {data : List Nat} {s : Nat}
    (h : s ≥ b.available_data ∨ b.available_space + data.length > b.capacity) :
    b.insert_slice data s = .ok (b, none) := by
  unfold Buffer.insert_slice
  rcases h with h | h
  · rw [if_pos h]
  · by_cases h1 : s ≥ b.available_data
    · rw [if_pos h1]
    · rw [if_neg h1, if_pos h]

theorem insert_slice_ok {b : Buffer} {data : List Nat} {s : Nat} (hwf : b.WF)
    (hs : s < b.available_data)
    (hg : b.available_space + data.length ≤ b.capacity)
    (hfit : b.available_data + data.length ≤ b.capacity) :
    ∃ b2, b.insert_slice data s = .ok (b2, some (b.available_data + data.length)) ∧
      b2.available_data = b.available_data + data.length ∧
      b2.buf.length = b.buf.length ∧
      b2.data = b.data.take s ++ data ++ b.data.drop s ∧ b2.WF := by
  obtain ⟨h1, h2⟩ := hwf
  have had : b.available_data = b.«end» - b.start := rfl
  have hcap : b.capacity = b.buf.length := rfl
  unfold Buffer.insert_slice
  rw [if_neg (by omega), if_neg (by omega)]
  by_cases hc : b.start + b.available_data + data.length > b.capacity
  · rw [if_pos hc]
    have hwf1 : b.shift.WF := shift_wf ⟨h1, h2⟩
    have hs1 : s < b.shift.available_data := by
      rw [shift_available_data]
      exact hs
    have hfit1 : b.shift.«end» + data.length ≤ b.shift.buf.length := by
      rw [shift_end, shift_buf_length ⟨h1, h2⟩]
      omega
    obtain ⟨b2, heq, hst, he, hlen, hdata, _, hwf2⟩ := insert_go_ok hwf1 hs1 hfit1
    rw [shift_available_data] at heq
    rw [shift_data ⟨h1, h2⟩] at hdata
    rw [shift_buf_length ⟨h1, h2⟩] at hlen
    refine ⟨b2, heq, ?_, hlen, hdata, hwf2⟩
    unfold Buffer.available_data at *
    rw [hst, he, shift_start, shift_end]
    omega
  · rw [if_neg hc]
    have hfit' : b.«end» + data.length ≤ b.buf.length := by omega
    obtain ⟨b2, heq, hst, he, hlen, hdata, _, hwf2⟩ := insert_go_ok ⟨h1, h2⟩ hs hfit'
    refine ⟨b2, heq, ?_, hlen, hdata, hwf2⟩
    unfold Buffer.available_data at *
    rw [hst, he]
    omega

theorem insert_slice_error {b : Buffer} {data : List Nat} {s : Nat} (hwf : b.WF)
    (hs : s < b.available_data)
    (hg : b.available_space + data.length ≤ b.capacity)
    (hbig : b.capacity < b.available_data + data.length) :
    b.insert_slice data s = .error "index out of bounds" := by
  obtain ⟨h1, h2⟩ := hwf
  have had : b.available_data = b.«end» - b.start := rfl
  have hcap : b.capacity = b.buf.length := rfl
  have hsp : b.available_space = b.buf.length - b.«end» := rfl
  unfold Buffer.insert_slice
  rw [if_neg (by omega), if_neg (by omega), if_pos (by omega)]
  unfold Buffer.insert_go
  have hnone : copyWithin? b.shift.buf (b.shift.start + s) b.shift.«end»
      (b.shift.start + s + data.length) = none := by
    unfold copyWithin?
    have hc : ¬ (b.shift.start + s ≤ b.shift.«end» ∧
        b.shift.«end» ≤ b.shift.buf.length ∧
        b.shift.start + s + data.length + (b.shift.«end» - (b.shift.start + s))
          ≤ b.shift.buf.length) := by
      rw [shift_start, shift_end, shift_buf_length ⟨h1, h2⟩]
      omega
    rw [if_neg hc]
  simp only [hnone]

/-- C1 counterexample: for the buffer with capacity 10, `start = 2`,
`end = 10`, inserting 5 bytes at offset 0 is not rejected by either
stated condition (`offset ≥ available_data` fails and
`available_space + data.len() > capacity` fails), yet the call does not
succeed: the post-compaction tail move is out of bounds, a fatal error
rather than a returned `available_data`. -/
theorem insert_slice_panic_counterexample :
    ¬ ((0 : Nat) ≥ (Buffer.mk (List.replicate 10 0) 2 10).available_data) ∧
    ¬ ((Buffer.mk (List.replicate 10 0) 2 10).available_space
        + ([1, 1, 1, 1, 1] : List Nat).length
        > (Buffer.mk (List.replicate 10 0) 2 10).capacity) ∧
    (Buffer.mk (List.replicate 10 0) 2 10).insert_slice [1, 1, 1, 1, 1] 0
      = .error "index out of bounds" := by
  refine ⟨by decide, by decide, ?_⟩
  exact insert_slice_error (by decide) (by decide) (by decide) (by decide)

/-- C1 (amended): `insert_slice(data, offset)` returns the
`not applicable` result with the buffer unmodified exactly when
`offset ≥ available_data` or `available_space + data.len() > capacity`;
in every other case where additionally
`available_data + data.len() ≤ capacity` it compacts implicitly if
needed, moves the tail right, copies `data` into the gap, and returns
the new `available_data`; in the remaining case
(`available_data + data.len() > capacity`) the call fails fatally with
an out-of-bounds copy instead of succeeding. -/
theorem insert_slice_spec (b : Buffer) (data : List Nat) (s : Nat) (hwf : b.WF) :
    ((s ≥ b.available_data ∨ b.available_space + data.length > b.capacity) →
      b.insert_slice data s = .ok (b, none)) ∧
    (s < b.available_data → b.available_space + data.length ≤ b.capacity →
      b.available_data + data.length ≤ b.capacity →
      ∃ b2, b.insert_slice data s = .ok (b2, some b2.available_data) ∧
        b2.available_data = b.available_data + data.length ∧
        b2.data = b.data.take s ++ data ++ b.data.drop s) ∧
    (s < b.available_data → b.available_space + data.length ≤ b.capacity →
      b.capacity < b.available_data + data.length →
      b.insert_slice data s = .error "index out of bounds") := by
  refine ⟨insert_slice_reject, ?_, fun a c d => insert_slice_error hwf a c d⟩
  intro a c d
  obtain ⟨b2, heq, hval, _, hdata, _⟩ := insert_slice_ok hwf a c d
  refine ⟨b2, ?_, hval, hdata⟩
  rw [heq, hval]

/-- C1 witness: a concrete successful insert through
`insert_slice_spec`. -/
theorem insert_slice_spec_witness :
    ∃ b2, (Buffer.mk [1, 2, 3, 4] 0 3).insert_slice [9] 1
        = .ok (b2, some b2.available_data) ∧
      b2.available_data = 4 ∧ b2.data = [1, 9, 2, 3] := by
  obtain ⟨hrej, hok, herr⟩ :=
    insert_slice_spec (Buffer.mk [1, 2, 3, 4] 0 3) [9] 1 (by decide)
  obtain ⟨b2, heq, hval, hdata⟩ := hok (by decide) (by decide) (by decide)
  exact ⟨b2, heq, by rw [hval]; decide, by rw [hdata]; decide⟩

/-- C7: after `shift()`, `position()` is 0, `end` equals the previous
`available_data`, `available_data` and the data bytes are unchanged,
and when `start` was already 0 the call changes nothing at all. -/
theorem shift_spec (b : Buffer) (hwf : b.WF) :
    b.shift.position = 0 ∧
    b.shift.«end» = b.available_data ∧
    b.shift.available_data = b.available_data ∧
    b.shift.data = b.data ∧
    (b.start = 0 → b.shift = b) := by
  refine ⟨shift_start b, shift_end b, ?_, shift_data hwf, ?_⟩
  · unfold Buffer.available_data
    rw [shift_end, shift_start]
    omega
  · intro h
    unfold Buffer.shift
    rw [if_pos h]

/-- C3 witness: concrete boundary calls through `delete_slice_spec`
(`available_data = 4`: offset+len = 4 rejected, offset+len = 3
accepted). -/
theorem delete_slice_spec_witness :
    (Buffer.from_slice [1, 2, 3, 4]).delete_slice 2 2
      = (Buffer.from_slice [1, 2, 3, 4], none) ∧
    ∃ b2, (Buffer.from_slice [1, 2, 3, 4]).delete_slice 1 2
        = (b2, some b2.available_data) ∧
      b2.available_data = 2 ∧ b2.data = [1, 4] := by
  obtain ⟨hrej, _⟩ := delete_slice_spec (Buffer.from_slice [1, 2, 3, 4]) 2 2 (by decide)
  obtain ⟨_, hacc⟩ := delete_slice_spec (Buffer.from_slice [1, 2, 3, 4]) 1 2 (by decide)
  obtain ⟨b2, heq, hval, _, _, hdata⟩ := hacc (by decide)
  exact ⟨hrej (by decide), b2, heq, by rw [hval]; decide, by rw [hdata]; decide⟩

/-- C7 witness: `shift_spec` at the concrete buffer `[1, 2, 3]` with
`start = 1`, `end = 3`. -/
theorem shift_spec_witness :
    (Buffer.mk [1, 2, 3] 1 3).shift.position = 0 ∧
    (Buffer.mk [1, 2, 3] 1 3).shift.«end» = (Buffer.mk [1, 2, 3] 1 3).available_data ∧
    (Buffer.mk [1, 2, 3] 1 3).shift.available_data
      = (Buffer.mk [1, 2, 3] 1 3).available_data ∧
    (Buffer.mk [1, 2, 3] 1 3).shift.data = (Buffer.mk [1, 2, 3] 1 3).data ∧
    ((Buffer.mk [1, 2, 3] 1 3).start = 0 →
      (Buffer.mk [1, 2, 3] 1 3).shift = Buffer.mk [1, 2, 3] 1 3) :=
  shift_spec (Buffer.mk [1, 2, 3] 1 3) (by decide)

/-! ### `fill`, `consume`, `grow`, constructors -/

/-- C5: `fill(n)` fails fatally iff `n > available_space` and otherwise
only advances `end` by `n`; `consume(n)` fails fatally iff
`n > available_data` and otherwise only advances `start` by `n`. -/
theorem fill_consume_spec (b : Buffer) (n : Nat) :
    (b.available_space < n →
      b.fill n = .error "attempted to write more data than available space") ∧
    (n ≤ b.available_space → b.fill n = .ok (⟨b.buf, b.start, b.«end» + n⟩, n)) ∧
    (b.available_data < n →
      b.consume n = .error "attempted to consume more data than available") ∧
    (n ≤ b.available_data → b.consume n = .ok (⟨b.buf, b.start + n, b.«end»⟩, n)) := by
  refine ⟨fun h => ?_, fun h => ?_, fun h => ?_, fun h => ?_⟩
  · unfold Buffer.fill
    rw [if_pos h]
  · unfold Buffer.fill
    rw [if_neg (by omega)]
  · unfold Buffer.consume
    rw [if_pos h]
  · unfold Buffer.consume
    rw [if_neg (by omega)]

/-- C5 witness: concrete `fill`/`consume` calls on a buffer with one
pending byte and one byte of space. -/
theorem fill_consume_spec_witness :
    (Buffer.mk [5, 6] 0 1).fill 1 = .ok (⟨[5, 6], 0, 2⟩, 1) ∧
    (Buffer.mk [5, 6] 0 1).consume 1 = .ok (⟨[5, 6], 1, 1⟩, 1) ∧
    (Buffer.mk [5, 6] 0 1).fill 2
      = .error "attempted to write more data than available space" ∧
    (Buffer.mk [5, 6] 0 1).consume 2
      = .error "attempted to consume more data than available" :=
  ⟨(fill_consume_spec (Buffer.mk [5, 6] 0 1) 1).2.1 (by decide),
   (fill_consume_spec (Buffer.mk [5, 6] 0 1) 1).2.2.2 (by decide),
   (fill_consume_spec (Buffer.mk [5, 6] 0 1) 2).1 (by decide),
   (fill_consume_spec (Buffer.mk [5, 6] 0 1) 2).2.2.1 (by decide)⟩

/-- C8: `grow(new_size)` is a no-op reporting `false` when `new_size`
does not exceed the capacity; otherwise it reports `true`, extends the
storage to exactly `new_size` bytes by appending zeroes (existing bytes
preserved), and leaves `start`/`end` unchanged in both cases. -/
theorem grow_spec (b : Buffer) (new_size : Nat) :
    (new_size ≤ b.capacity → b.grow new_size = (b, false)) ∧
    (b.capacity < new_size →
      (b.grow new_size).2 = true ∧
      (b.grow new_size).1.buf = b.buf ++ List.replicate (new_size - b.capacity) 0 ∧
      (b.grow new_size).1.capacity = new_size ∧
      (b.grow new_size).1.start = b.start ∧
      (b.grow new_size).1.«end» = b.«end») := by
  constructor
  · intro h
    unfold Buffer.grow
    rw [if_pos h]
  · intro h
    unfold Buffer.grow
    rw [if_neg (by omega)]
    refine ⟨rfl, rfl, ?_, rfl, rfl⟩
    show (b.buf ++ List.replicate (new_size - b.buf.length) 0).length = new_size
    have hc : b.capacity = b.buf.length := rfl
    simp only [List.length_append, List.length_replicate]
    omega

/-- C8 witness: concrete no-op and growing calls through `grow_spec`. -/
theorem grow_spec_witness :
    (Buffer.mk [1, 2] 0 1).grow 2 = (Buffer.mk [1, 2] 0 1, false) ∧
    ((Buffer.mk [1, 2] 0 1).grow 4).2 = true ∧
    ((Buffer.mk [1, 2] 0 1).grow 4).1.buf = [1, 2] ++ List.replicate 2 0 :=
  ⟨(grow_spec (Buffer.mk [1, 2] 0 1) 2).1 (by decide),
   ((grow_spec (Buffer.mk [1, 2] 0 1) 4).2 (by decide)).1,
   ((grow_spec (Buffer.mk [1, 2] 0 1) 4).2 (by decide)).2.1⟩

/-- C10: a buffer built by `from_slice(d)` has `capacity == d.len()`,
`start == 0`, `end == d.len()`, hence `available_space == 0`, and any
write through the `Write` adapter copies 0 bytes and leaves the buffer
unchanged until `grow` is called. -/
theorem from_slice_spec (d : List Nat) :
    (Buffer.from_slice d).capacity = d.length ∧
    (Buffer.from_slice d).start = 0 ∧
    (Buffer.from_slice d).«end» = d.length ∧
    (Buffer.from_slice d).available_space = 0 ∧
    ∀ src : List Nat, ((Buffer.from_slice d).write src).2 = 0 ∧
      ((Buffer.from_slice d).write src).1 = Buffer.from_slice d := by
  refine ⟨rfl, rfl, rfl, ?_, fun src => ⟨?_, ?_⟩⟩
  · show d.length - d.length = 0
    omega
  · show min (d.length - d.length) src.length = 0
    omega
  · show Buffer.mk (d.take d.length ++ src.take (min (d.length - d.length) src.length)
        ++ d.drop (d.length + min (d.length - d.length) src.length))
        0 (d.length + min (d.length - d.length) src.length) = Buffer.from_slice d
    have h0 : min (d.length - d.length) src.length = 0 := by omega
    rw [h0]
    simp [Buffer.from_slice]

/-! ### `replace_slice` boundary (C2) -/

/-- C2 failing input: with 8 pending bytes, `replace_slice([9], 5, 3)`
has `offset + len == available_data` and `len > data.len()`; the claim
says this succeeds, but the internal `delete_slice(6, 2)` rejects
`6 + 2 ≥ 8` and the `.expect` fails fatally. -/
theorem replace_slice_boundary_panic :
    5 + 3 ≤ (Buffer.from_slice [1, 2, 3, 4, 5, 6, 7, 8]).available_data ∧
    3 > ([9] : List Nat).length ∧
    (Buffer.from_slice [1, 2, 3, 4, 5, 6, 7, 8]).replace_slice [9] 5 3
      = .error "logic error in replace_slice (greater)" :=
  ⟨by decide, by decide, rfl⟩

/-! ### Stream adapters (C9) -/

/-- C9: writing `available_space()` bytes through the `Write` adapter
reports all of them written, and after reading back the previously
pending bytes, reading `src.length` more bytes through the `Read`
adapter yields exactly the written bytes in order. -/
theorem write_read_roundtrip (b : Buffer) (src : List Nat) (hwf : b.WF)
    (hlen : src.length = b.available_space) :
    (b.write src).2 = src.length ∧
    (((b.write src).1.read b.available_data).1.read src.length).2 = src := by
  obtain ⟨h1, h2⟩ := hwf
  have hsp : b.available_space = b.buf.length - b.«end» := rfl
  have had : b.available_data = b.«end» - b.start := rfl
  have hwl : min (b.buf.length - b.«end») src.length = src.length := by omega
  have htw : (b.buf.take b.«end»).length = b.«end» := by
    simp only [List.length_take]
    omega
  refine ⟨hwl, ?_⟩
  have hbuf1 : (b.write src).1.buf = b.buf.take b.«end» ++ src := by
    show b.buf.take b.«end» ++ src.take (min (b.buf.length - b.«end») src.length)
        ++ b.buf.drop (b.«end» + min (b.buf.length - b.«end») src.length)
      = b.buf.take b.«end» ++ src
    rw [hwl, List.take_length, List.drop_eq_nil_of_le (by omega), List.append_nil]
  have hend1 : (b.write src).1.«end» = b.«end» + src.length := by
    show b.«end» + min (b.buf.length - b.«end») src.length = _
    rw [hwl]
  have hstart1 : (b.write src).1.start = b.start := rfl
  have hlen1 : (b.write src).1.buf.length = b.«end» + src.length := by
    rw [hbuf1]
    simp only [List.length_append]
    rw [htw]
  have hdata1len : (b.write src).1.data.length = b.«end» + src.length - b.start := by
    unfold Buffer.data
    simp only [List.length_take, List.length_drop]
    rw [hlen1, hend1, hstart1]
    omega
  have hrl1 : min (b.write src).1.data.length b.available_data = b.available_data := by
    rw [hdata1len]
    omega
  have hr1start : ((b.write src).1.read b.available_data).1.start = b.«end» := by
    show (b.write src).1.start + min (b.write src).1.data.length b.available_data = b.«end»
    rw [hrl1, hstart1]
    omega
  have hr1end : ((b.write src).1.read b.available_data).1.«end» = b.«end» + src.length :=
    hend1
  have hr1buf : ((b.write src).1.read b.available_data).1.buf
      = b.buf.take b.«end» ++ src := hbuf1
  have hR1data : ((b.write src).1.read b.available_data).1.data = src := by
    unfold Buffer.data
    rw [hr1start, hr1end, hr1buf]
    have hdl : (b.buf.take b.«end» ++ src).drop b.«end» = src := List.drop_left' htw
    rw [hdl, show b.«end» + src.length - b.«end» = src.length by omega, List.take_length]
  show ((b.write src).1.read b.available_data).1.data.take
      (min ((b.write src).1.read b.available_data).1.data.length src.length) = src
  rw [hR1data, Nat.min_self, List.take_length]

/-- C9 witness: round trip at a concrete buffer with 2 pending bytes and
2 bytes of space, via `write_read_roundtrip`. -/
theorem write_read_roundtrip_witness :
    ((Buffer.mk [1, 2, 3, 4] 0 2).write [7, 8]).2 = 2 ∧
    ((((Buffer.mk [1, 2, 3, 4] 0 2).write [7, 8]).1.read
        (Buffer.mk [1, 2, 3, 4] 0 2).available_data).1.read 2).2 = [7, 8] :=
  write_read_roundtrip (Buffer.mk [1, 2, 3, 4] 0 2) [7, 8] (by decide) (by decide)

/-! ### Inversion lemmas for the editing operations -/

theorem delete_slice_rejected {b : Buffer} {s len : Nat}
    (h : s + len ≥ b.available_data) : b.delete_slice s len = (b, none) := by
  unfold Buffer.delete_slice
  rw [if_pos h]

theorem finishReplace_ok {b : Buffer} {data : List Nat} {s : Nat}
    (h : b.start + s + data.length ≤ b.buf.length) :
    b.finishReplace data s
      = .ok ({ b with buf := overwrite b.buf (b.start + s) data },
          some b.available_data) := by
  unfold Buffer.finishReplace setRange?
  rw [if_pos h]
  rfl

theorem insert_slice_eq_go {b : Buffer} {data : List Nat} {s : Nat}
    (hg1 : ¬ s ≥ b.available_data)
    (hg2 : ¬ b.available_space + data.length > b.capacity)
    (hns : ¬ b.start + b.available_data + data.length > b.capacity) :
    b.insert_slice data s = Buffer.insert_go b data s := by
  unfold Buffer.insert_slice
  rw [if_neg hg1, if_neg hg2, if_neg hns]

theorem insert_slice_eq_shift_go {b : Buffer} {data : List Nat} {s : Nat}
    (hg1 : ¬ s ≥ b.available_data)
    (hg2 : ¬ b.available_space + data.length > b.capacity)
    (hns : b.start + b.available_data + data.length > b.capacity) :
    b.insert_slice data s = Buffer.insert_go b.shift data s := by
  unfold Buffer.insert_slice
  rw [if_neg hg1, if_neg hg2, if_pos hns]

theorem insert_go_shift_error {b : Buffer} {data : List Nat} {s : Nat} (hwf : b.WF)
    (hs : s < b.available_data)
    (hbig : b.buf.length < b.available_data + data.length) :
    Buffer.insert_go b.shift data s = .error "index out of bounds" := by
  obtain ⟨h1, h2⟩ := hwf
  have had : b.available_data = b.«end» - b.start := rfl
  unfold Buffer.insert_go
  have hnone : copyWithin? b.shift.buf (b.shift.start + s) b.shift.«end»
      (b.shift.start + s + data.length) = none := by
    unfold copyWithin?
    have hc : ¬ (b.shift.start + s ≤ b.shift.«end» ∧
        b.shift.«end» ≤ b.shift.buf.length ∧
        b.shift.start + s + data.length + (b.shift.«end» - (b.shift.start + s))
          ≤ b.shift.buf.length) := by
      rw [shift_start, shift_end, shift_buf_length ⟨h1, h2⟩]
      omega
    rw [if_neg hc]
  simp only [hnone]

/-- Everything a successful (`.ok`) `insert_slice` guarantees: the
invariant and storage length are preserved, `start` can only move down
(to 0, by the implicit `shift`), an `.ok (_, none)` is exactly the
rejecting no-op, and when no compaction was needed
(`end + data.len() ≤ capacity`) the bytes below `start` are untouched. -/
theorem insert_slice_ok_inv {b : Buffer} {data : List Nat} {s : Nat} {b2 : Buffer}
    {r : Option Nat} (hwf : b.WF) (h : b.insert_slice data s = .ok (b2, r)) :
    b2.WF ∧ b2.buf.length = b.buf.length ∧ b2.start ≤ b.start ∧
    (r = none → b2 = b) ∧
    (b.«end» + data.length ≤ b.capacity →
      b2.buf.take b.start = b.buf.take b.start ∧ b2.start = b.start) := by
  have h1 := hwf.1
  have h2 := hwf.2
  have had : b.available_data = b.«end» - b.start := rfl
  have hcap : b.capacity = b.buf.length := rfl
  have hsp : b.available_space = b.capacity - b.«end» := rfl
  by_cases hg : s ≥ b.available_data ∨ b.available_space + data.length > b.capacity
  · rw [insert_slice_reject hg] at h
    simp only [Except.ok.injEq, Prod.mk.injEq] at h
    obtain ⟨hb, hr⟩ := h
    subst hb
    exact ⟨hwf, rfl, le_refl _, fun _ => rfl, fun _ => ⟨rfl, rfl⟩⟩
  · push_neg at hg
    obtain ⟨hs', hg2⟩ := hg
    have hs : s < b.available_data := by omega
    by_cases hshift : b.start + b.available_data + data.length > b.capacity
    · rw [insert_slice_eq_shift_go (by omega) (by omega) hshift] at h
      by_cases hfits : b.available_data + data.length ≤ b.capacity
      · have hs1 : s < b.shift.available_data := by
          rw [shift_available_data]
          exact hs
        have hfit1 : b.shift.«end» + data.length ≤ b.shift.buf.length := by
          rw [shift_end, shift_buf_length hwf]
          omega
        obtain ⟨b2', heq, hst, he, hlen, _, _, hwf2⟩ := insert_go_ok (shift_wf hwf) hs1 hfit1
        rw [heq] at h
        simp only [Except.ok.injEq, Prod.mk.injEq] at h
        obtain ⟨hb, hr⟩ := h
        subst hb
        refine ⟨hwf2, by rw [hlen, shift_buf_length hwf], ?_, ?_, ?_⟩
        · rw [hst, shift_start]
          omega
        · intro hnone
          rw [← hr] at hnone
          exact absurd hnone (by simp)
        · intro hfit
          exfalso
          omega
      · rw [insert_go_shift_error hwf hs (by omega)] at h
        exact absurd h (by simp)
    · rw [insert_slice_eq_go (by omega) (by omega) hshift] at h
      have hfit' : b.«end» + data.length ≤ b.buf.length := by omega
      obtain ⟨b2', heq, hst, he, hlen, _, hframe, hwf2⟩ := insert_go_ok hwf hs hfit'
      rw [heq] at h
      simp only [Except.ok.injEq, Prod.mk.injEq] at h
      obtain ⟨hb, hr⟩ := h
      subst hb
      refine ⟨hwf2, hlen, by rw [hst], ?_, fun _ => ⟨hframe, hst⟩⟩
      intro hnone
      rw [← hr] at hnone
      exact absurd hnone (by simp)

/-- Everything a successful (`.ok`) `replace_slice` guarantees: the
invariant and storage length are preserved, `start` can only move down,
and when `end + data.len() ≤ capacity` (no implicit compaction possible)
the bytes below `start` are untouched. -/
theorem replace_slice_ok_inv {b : Buffer} {data : List Nat} {s len : Nat} {b2 : Buffer}
    {r : Option Nat} (hwf : b.WF) (h : b.replace_slice data s len = .ok (b2, r)) :
    b2.WF ∧ b2.buf.length = b.buf.length ∧ b2.start ≤ b.start ∧
    (b.«end» + data.length ≤ b.capacity →
      b2.buf.take b.start = b.buf.take b.start) := by
  have h1 := hwf.1
  have h2 := hwf.2
  have had : b.available_data = b.«end» - b.start := rfl
  have hcap : b.capacity = b.buf.length := rfl
  unfold Buffer.replace_slice at h
  by_cases hgt : len > data.length
  · rw [if_pos hgt] at h
    by_cases hval : b.start + s + len > b.«end»
    · rw [if_pos hval] at h
      simp only [Except.ok.injEq, Prod.mk.injEq] at h
      obtain ⟨hb, _⟩ := h
      subst hb
      exact ⟨hwf, rfl, le_refl _, fun _ => rfl⟩
    · rw [if_neg hval] at h
      simp only [] at h
      by_cases hdel : s + data.length + (len - data.length) ≥ b.available_data
      · rw [delete_slice_rejected hdel] at h
        simp at h
      · obtain ⟨b1, heq, hst, he, hlen, _, hframe1, hwf1⟩ :=
          @delete_slice_effect b (s + data.length) (len - data.length) hwf (by omega)
        rw [heq] at h
        simp only [] at h
        have hbound : b1.start + s + data.length ≤ b1.buf.length := by
          rw [hst, hlen]
          omega
        rw [finishReplace_ok hbound] at h
        simp only [Except.ok.injEq, Prod.mk.injEq] at h
        obtain ⟨hb, _⟩ := h
        subst hb
        refine ⟨⟨?_, ?_⟩, ?_, by rw [hst], fun _ => ?_⟩
        · show b1.start ≤ b1.«end»
          exact hwf1.1
        · show b1.«end» ≤ (overwrite b1.buf (b1.start + s) data).length
          rw [overwrite_length hbound]
          exact hwf1.2
        · show (overwrite b1.buf (b1.start + s) data).length = b.buf.length
          rw [overwrite_length hbound, hlen]
        · show (overwrite b1.buf (b1.start + s) data).take b.start = b.buf.take b.start
          rw [take_overwrite (by rw [hst]; omega) hbound, hframe1]
  · by_cases hlt : len < data.length
    · rw [if_neg hgt, if_pos hlt] at h
      by_cases hval : b.start + s + data.length > b.«end»
      · rw [if_pos hval] at h
        simp only [Except.ok.injEq, Prod.mk.injEq] at h
        obtain ⟨hb, _⟩ := h
        subst hb
        exact ⟨hwf, rfl, le_refl _, fun _ => rfl⟩
      · rw [if_neg hval] at h
        simp only [] at h
        rcases hins : b.insert_slice (data.drop len) (s + len) with e | ⟨b1, r1⟩
        · rw [hins] at h
          simp at h
        · rw [hins] at h
          match r1, h with
          | none, h => simp at h
          | some v, h =>
            simp only [] at h
            obtain ⟨hwf1, hlen, hstle, _, hcond⟩ := insert_slice_ok_inv hwf hins
            have htl : (data.take len).length = len := by
              simp only [List.length_take]
              omega
            have hbound : b1.start + s + (data.take len).length ≤ b1.buf.length := by
              rw [htl, hlen]
              omega
            rw [finishReplace_ok hbound] at h
            simp only [Except.ok.injEq, Prod.mk.injEq] at h
            obtain ⟨hb, _⟩ := h
            subst hb
            refine ⟨⟨hwf1.1, ?_⟩, ?_, hstle, fun hfit => ?_⟩
            · show b1.«end» ≤ (overwrite b1.buf (b1.start + s) (data.take len)).length
              rw [overwrite_length hbound]
              exact hwf1.2
            · show (overwrite b1.buf (b1.start + s) (data.take len)).length = b.buf.length
              rw [overwrite_length hbound, hlen]
            · obtain ⟨hframe1, hst1⟩ := hcond (by
                have : (data.drop len).length ≤ data.length := by
                  simp only [List.length_drop]
                  omega
                omega)
              show (overwrite b1.buf (b1.start + s) (data.take len)).take b.start
                = b.buf.take b.start
              rw [take_overwrite (by rw [hst1]; omega) hbound, hframe1]
    · rw [if_neg hgt, if_neg hlt] at h
      have hdl : len = data.length := by omega
      by_cases hval : b.start + s + len > b.«end»
      · rw [if_pos hval] at h
        simp only [Except.ok.injEq, Prod.mk.injEq] at h
        obtain ⟨hb, _⟩ := h
        subst hb
        exact ⟨hwf, rfl, le_refl _, fun _ => rfl⟩
      · rw [if_neg hval] at h
        have hbound : b.start + s + data.length ≤ b.buf.length := by omega
        rw [finishReplace_ok hbound] at h
        simp only [Except.ok.injEq, Prod.mk.injEq] at h
        obtain ⟨hb, _⟩ := h
        subst hb
        refine ⟨⟨hwf.1, ?_⟩, ?_, le_refl _, fun _ => ?_⟩
        · show b.«end» ≤ (overwrite b.buf (b.start + s) data).length
          rw [overwrite_length hbound]
          exact hwf.2
        · show (overwrite b.buf (b.start + s) data).length = b.buf.length
          rw [overwrite_length hbound]
        · show (overwrite b.buf (b.start + s) data).take b.start = b.buf.take b.start
          rw [take_overwrite (by omega) hbound]

/-! ### Frame violation (C6) -/

/-- C6 counterexample: on the buffer `[10, 20, 30, 40]` with
`start = 2`, `end = 4`, `insert_slice([7, 7], 0)` succeeds after an
implicit `shift` and rewrites storage index 0 (which is below the
at-call `start = 2`) from 10 to 7. -/
theorem slice_frame_counterexample :
    (Buffer.mk [10, 20, 30, 40] 2 4).insert_slice [7, 7] 0
      = .ok (Buffer.mk [7, 7, 30, 40] 0 4, some 4) ∧
    (Buffer.mk [10, 20, 30, 40] 2 4).start = 2 ∧
    (Buffer.mk [10, 20, 30, 40] 2 4).buf[0]? = some 10 ∧
    (Buffer.mk [7, 7, 30, 40] 0 4).buf[0]? = some 7 :=
  ⟨rfl, rfl, rfl, rfl⟩

/-- C6 (amended): `delete_slice` never modifies a storage byte below the
at-call `start`; `insert_slice` and `replace_slice` also never do so
whenever `end + data.len() ≤ capacity` (no implicit compaction can
trigger); when compaction does trigger, bytes below `start` may be
rewritten (see the counterexample). -/
theorem slice_ops_frame (b : Buffer) (data : List Nat) (s len : Nat) (hwf : b.WF) :
    ((b.delete_slice s len).1.buf.take b.start = b.buf.take b.start) ∧
    (b.«end» + data.length ≤ b.capacity →
      (∀ b2 r, b.insert_slice data s = .ok (b2, r) →
        b2.buf.take b.start = b.buf.take b.start) ∧
      (∀ b2 r, b.replace_slice data s len = .ok (b2, r) →
        b2.buf.take b.start = b.buf.take b.start)) := by
  constructor
  · by_cases hd : s + len ≥ b.available_data
    · rw [delete_slice_rejected hd]
    · obtain ⟨b1, heq, _, _, _, _, hframe, _⟩ := @delete_slice_effect b s len hwf (by omega)
      rw [heq]
      exact hframe
  · intro hfit
    exact ⟨fun b2 r h => ((insert_slice_ok_inv hwf h).2.2.2.2 hfit).1,
           fun b2 r h => (replace_slice_ok_inv hwf h).2.2.2 hfit⟩

/-- C6 witness: the frame property at concrete calls (`start = 1`) via
`slice_ops_frame`. -/
theorem slice_ops_frame_witness :
    ((Buffer.mk [9, 1, 2, 3] 1 3).delete_slice 0 1).1.buf.take 1
      = (Buffer.mk [9, 1, 2, 3] 1 3).buf.take 1 ∧
    (Buffer.mk [9, 7, 1, 2] 1 4).buf.take 1 = (Buffer.mk [9, 1, 2, 3] 1 3).buf.take 1 ∧
    (Buffer.mk [9, 7, 2, 3] 1 3).buf.take 1 = (Buffer.mk [9, 1, 2, 3] 1 3).buf.take 1 := by
  obtain ⟨hdel, hrest⟩ := slice_ops_frame (Buffer.mk [9, 1, 2, 3] 1 3) [7] 0 1 (by decide)
  obtain ⟨hins, hrep⟩ := hrest (by decide)
  exact ⟨hdel, hins (Buffer.mk [9, 7, 1, 2] 1 4) (some 3) rfl,
    hrep (Buffer.mk [9, 7, 2, 3] 1 3) (some 2) rfl⟩

/-! ### Reachable states (C4) -/

/-- One public mutating operation, relating a buffer to a possible
successor state (calls that fail fatally produce no successor, and
rejected edits leave the state unchanged, which the `.1`/`.ok`
projections capture).  `writeSpace` models an external writer mutating
the mutable space view returned by `Buffer::space`: it can replace the
bytes from `end` on but nothing else. -/
inductive Step : Buffer → Buffer → Prop
  | grow (b : Buffer) (n : Nat) : Step b (b.grow n).1
  | fill (b : Buffer) (n : Nat) (b2 : Buffer) (r : Nat) :
      b.fill n = .ok (b2, r) → Step b b2
  | consume (b : Buffer) (n : Nat) (b2 : Buffer) (r : Nat) :
      b.consume n = .ok (b2, r) → Step b b2
  | consume_noshift (b : Buffer) (n : Nat) (b2 : Buffer) (r : Nat) :
      b.consume_noshift n = .ok (b2, r) → Step b b2
  | reset (b : Buffer) : Step b b.reset
  | shift (b : Buffer) : Step b b.shift
  | delete_slice (b : Buffer) (s len : Nat) : Step b (b.delete_slice s len).1
  | insert_slice (b : Buffer) (data : List Nat) (s : Nat) (b2 : Buffer) (r : Option Nat) :
      b.insert_slice data s = .ok (b2, r) → Step b b2
  | replace_slice (b : Buffer) (data : List Nat) (s len : Nat) (b2 : Buffer)
      (r : Option Nat) : b.replace_slice data s len = .ok (b2, r) → Step b b2
  | read (b : Buffer) (n : Nat) : Step b (b.read n).1
  | write (b : Buffer) (src : List Nat) : Step b (b.write src).1
  | writeSpace (b : Buffer) (s : List Nat) (h : s.length = b.buf.length - b.«end») :
      Step b ⟨b.buf.take b.«end» ++ s, b.start, b.«end»⟩

/-- The states reachable from either constructor by any sequence of
public operations. -/
inductive Reachable : Buffer → Prop
  | with_capacity (c : Nat) : Reachable (Buffer.with_capacity c)
  | from_slice (d : List Nat) : Reachable (Buffer.from_slice d)
  | step {b b2 : Buffer} : Reachable b → Step b b2 → Reachable b2

theorem step_wf {b b2 : Buffer} (hwf : b.WF) (h : Step b b2) : b2.WF := by
  obtain ⟨h1, h2⟩ := hwf
  cases h with
  | grow n =>
    unfold Buffer.grow
    split_ifs with hg
    · exact ⟨h1, h2⟩
    · refine ⟨h1, ?_⟩
      show b.«end» ≤ (b.buf ++ List.replicate (n - b.buf.length) 0).length
      simp only [List.length_append, List.length_replicate]
      omega
  | fill n b2 r heq =>
    unfold Buffer.fill at heq
    split_ifs at heq with hc
    have hsp : b.available_space = b.buf.length - b.«end» := rfl
    simp only [Except.ok.injEq, Prod.mk.injEq] at heq
    obtain ⟨hb, _⟩ := heq
    rw [← hb]
    exact ⟨by show b.start ≤ b.«end» + n; omega, by show b.«end» + n ≤ b.buf.length; omega⟩
  | consume n b2 r heq =>
    unfold Buffer.consume at heq
    split_ifs at heq with hc
    have had : b.available_data = b.«end» - b.start := rfl
    simp only [Except.ok.injEq, Prod.mk.injEq] at heq
    obtain ⟨hb, _⟩ := heq
    rw [← hb]
    exact ⟨by show b.start + n ≤ b.«end»; omega, h2⟩
  | consume_noshift n b2 r heq =>
    unfold Buffer.consume_noshift Buffer.consume at heq
    split_ifs at heq with hc
    have had : b.available_data = b.«end» - b.start := rfl
    simp only [Except.ok.injEq, Prod.mk.injEq] at heq
    obtain ⟨hb, _⟩ := heq
    rw [← hb]
    exact ⟨by show b.start + n ≤ b.«end»; omega, h2⟩
  | reset => exact ⟨Nat.le_refl 0, Nat.zero_le _⟩
  | shift => exact shift_wf ⟨h1, h2⟩
  | delete_slice s len =>
    by_cases hd : s + len ≥ b.available_data
    · rw [delete_slice_rejected hd]
      exact ⟨h1, h2⟩
    · obtain ⟨b1, heq, _, _, _, _, _, hwf1⟩ := @delete_slice_effect b s len ⟨h1, h2⟩ (by omega)
      rw [heq]
      exact hwf1
  | insert_slice data s b2 r heq => exact (insert_slice_ok_inv ⟨h1, h2⟩ heq).1
  | replace_slice data s len b2 r heq => exact (replace_slice_ok_inv ⟨h1, h2⟩ heq).1
  | read n =>
    have hdl := data_length (⟨h1, h2⟩ : b.WF)
    refine ⟨?_, h2⟩
    show b.start + min b.data.length n ≤ b.«end»
    omega
  | write src =>
    refine ⟨?_, ?_⟩
    · show b.start ≤ b.«end» + min (b.buf.length - b.«end») src.length
      omega
    · show b.«end» + min (b.buf.length - b.«end») src.length
        ≤ (b.buf.take b.«end» ++ src.take (min (b.buf.length - b.«end») src.length)
            ++ b.buf.drop (b.«end» + min (b.buf.length - b.«end») src.length)).length
      simp only [List.length_append, List.length_take, List.length_drop]
      omega
  | writeSpace s hlen =>
    refine ⟨h1, ?_⟩
    show b.«end» ≤ (b.buf.take b.«end» ++ s).length
    simp only [List.length_append, List.length_take]
    omega

/-- C4: every state reachable from either constructor by any sequence of
public operations satisfies `0 ≤ start ≤ end ≤ capacity`,
`available_data + start == end`, and
`available_data + available_space == capacity − start`. -/
theorem reachable_invariant (b : Buffer) (h : Reachable b) :
    0 ≤ b.start ∧ b.start ≤ b.«end» ∧ b.«end» ≤ b.capacity ∧
    b.available_data + b.start = b.«end» ∧
    b.available_data + b.available_space = b.capacity - b.start := by
  have hwf : b.WF := by
    induction h with
    | with_capacity c => exact ⟨Nat.le_refl 0, Nat.zero_le _⟩
    | from_slice d => exact ⟨Nat.zero_le _, Nat.le_refl _⟩
    | step _ hstep ih => exact step_wf ih hstep
  obtain ⟨h1, h2⟩ := hwf
  have had : b.available_data = b.«end» - b.start := rfl
  have hsp : b.available_space = b.capacity - b.«end» := rfl
  have hc : b.capacity = b.buf.length := rfl
  exact ⟨Nat.zero_le _, h1, h2, by omega, by omega⟩

/-- C4 witness: the invariant at the concrete state reached from
`with_capacity 3` by writing two bytes and consuming one. -/
theorem reachable_invariant_witness :
    0 ≤ (Buffer.mk [1, 2, 0] 1 2).start ∧
    (Buffer.mk [1, 2, 0] 1 2).start ≤ (Buffer.mk [1, 2, 0] 1 2).«end» ∧
    (Buffer.mk [1, 2, 0] 1 2).«end» ≤ (Buffer.mk [1, 2, 0] 1 2).capacity ∧
    (Buffer.mk [1, 2, 0] 1 2).available_data + (Buffer.mk [1, 2, 0] 1 2).start
      = (Buffer.mk [1, 2, 0] 1 2).«end» ∧
    (Buffer.mk [1, 2, 0] 1 2).available_data + (Buffer.mk [1, 2, 0] 1 2).available_space
      = (Buffer.mk [1, 2, 0] 1 2).capacity - (Buffer.mk [1, 2, 0] 1 2).start :=
  reachable_invariant (Buffer.mk [1, 2, 0] 1 2)
    (Reachable.step
      (Reachable.step (Reachable.with_capacity 3)
        (Step.write (Buffer.with_capacity 3) [1, 2]))
      (Step.consume (Buffer.mk [1, 2, 0] 0 2) 1 (Buffer.mk [1, 2, 0] 1 2) 1 rfl))

end Circular
